import Mathlib

/-!
Verification of the noteshrink core pipeline (src/notescan.py) against its
natural-language specification.  The Python source is shallowly embedded:
images are lists of RGB triples of naturals, numpy float arithmetic is
modelled over `ℚ`, and operations that raise in numpy/scipy are modelled
with `Option`.
-/

namespace Notescan

/-- An RGB triple of 8-bit channel values (stored as naturals; the numpy
code converts to machine ints with `astype(int)` before arithmetic). -/
abbrev RGB := ℕ × ℕ × ℕ

/-- A color triple over the rationals, modelling numpy float arrays. -/
abbrev RGBQ := ℚ × ℚ × ℚ

/-- Per-channel quantization, from `quantize` in src/notescan.py
(`shift = 8-bits_per_channel`, `halfbin = 1 << (shift-1)`,
`(((image.astype(int) + halfbin) >> shift) << shift) + halfbin`). -/
def quantizeChannel (bits v : ℕ) : ℕ :=
  let shift := 8 - bits
  let halfbin := 1 <<< (shift - 1)
  (((v + halfbin) >>> shift) <<< shift) + halfbin

/-- `quantize` applied to one RGB triple (numpy applies it elementwise). -/
def quantizeRGB (bits : ℕ) (c : RGB) : RGB :=
  (quantizeChannel bits c.1, quantizeChannel bits c.2.1, quantizeChannel bits c.2.2)

/-- `quantize` on a whole image (the image is kept as a flat pixel list;
the 2-D shape is irrelevant to every per-pixel operation). -/
def quantize (bits : ℕ) (image : List RGB) : List RGB :=
  image.map (quantizeRGB bits)

/-- `pack_rgb` from src/notescan.py: `rgb[0] | rgb[1] << 8 | rgb[2] << 16`. -/
def pack_rgb (c : RGB) : ℕ :=
  c.1 ||| c.2.1 <<< 8 ||| c.2.2 <<< 16

/-- `unpack_rgb` from src/notescan.py:
`(packed & 0xff, (packed >> 8) & 0xff, (packed >> 16) & 0xff)`. -/
def unpack_rgb (x : ℕ) : RGB :=
  (x &&& 0xff, (x >>> 8) &&& 0xff, (x >>> 16) &&& 0xff)

/-- `quantizeChannel` in division form: the shifts are division and
multiplication by the bucket size `2^(8-bits)`. -/
lemma quantizeChannel_eq_div (bits v : ℕ) :
    quantizeChannel bits v =
      2 ^ (8 - bits) * ((v + 2 ^ (8 - bits - 1)) / 2 ^ (8 - bits)) + 2 ^ (8 - bits - 1) := by
  unfold quantizeChannel
  simp only [Nat.one_shiftLeft, Nat.shiftRight_eq_div_pow, Nat.shiftLeft_eq]
  ring

section QuantizeClaims

/-- C1 (counterexample): the claim says the quantized value is the bucket
center nearest to `v` (ties upward).  At the default 6 bits the value 2 is
itself a bucket center (`2 % 4 = 2 = half_bucket`, `2 ≤ 255`), yet
`quantize` maps it to 6, which is strictly farther from 2 than the center 2
is.  So the code does not round to the nearest bucket center. -/
theorem quantize_not_nearest_center_cex :
    quantizeChannel 6 2 = 6 ∧ 2 % 2 ^ (8 - 6) = 2 ^ (8 - 6 - 1) ∧ 2 ≤ 255 ∧
      ((2 : ℤ) - 2).natAbs < ((2 : ℤ) - 6).natAbs := by
  refine ⟨by decide, by decide, by decide, by decide⟩

/-- Largest multiple of `B` at most a bound that is itself a multiple. -/
lemma mul_le_of_lt_mul {B q c : ℕ} (hBpos : 0 < B) (h : B * q < B * c) :
    B * q + B ≤ B * c := by
  have hq : q < c := Nat.lt_of_mul_lt_mul_left h
  have h2 : B * (q + 1) ≤ B * c := mul_le_mul_left' (by omega) B
  rw [Nat.mul_succ] at h2
  omega

/-- C1 (amended): `quantize` computes exactly the stated formula
`((v + half_bucket) >> shift << shift) + half_bucket`; writing
`q = (v + half_bucket) / bucket_size`, the result is `bucket_size * q +
half_bucket`, congruent to `half_bucket` modulo the bucket size.
`bucket_size * q` is the multiple of the bucket size nearest to `v` (ties
resolved toward the upper multiple), so the result is the center of the
bucket containing `v + half_bucket` — not the bucket center nearest to `v`.
It lies in [0,255] iff `v + half_bucket ≤ 255`; for larger `v` it equals
`256 + half_bucket`, outside the [0,255] range of bucket centers. -/
theorem quantizeChannel_spec (bits v s B half q : ℕ)
    (hb1 : 1 ≤ bits) (hb7 : bits ≤ 7) (hv : v ≤ 255)
    (hs : s = 8 - bits) (hB : B = 2 ^ s) (hh : half = 2 ^ (s - 1))
    (hq : q = (v + half) / B) :
    quantizeChannel bits v = (((v + half) >>> s) <<< s) + half ∧
    quantizeChannel bits v = B * q + half ∧
    quantizeChannel bits v % B = half ∧
    (∀ m : ℕ, ((v : ℤ) - (B * q : ℕ)).natAbs ≤ ((v : ℤ) - (B * m : ℕ)).natAbs) ∧
    (∀ m : ℕ, ((v : ℤ) - (B * m : ℕ)).natAbs = ((v : ℤ) - (B * q : ℕ)).natAbs → m ≤ q) ∧
    (quantizeChannel bits v ≤ 255 ↔ v + half ≤ 255) ∧
    (255 < v + half → quantizeChannel bits v = 256 + half) := by
  have hs1 : 1 ≤ s := by omega
  have hs7 : s ≤ 7 := by omega
  have hB2 : B = 2 * half := by
    rw [hB, hh, ← pow_succ']
    congr 1
    omega
  have hhalf1 : 1 ≤ half := by
    rw [hh]; exact Nat.one_le_two_pow
  have hBpos : 0 < B := by omega
  -- 256 is a multiple of the bucket size
  obtain ⟨c, hc⟩ : B ∣ 256 := by
    subst hB
    have : (256 : ℕ) = 2 ^ 8 := by norm_num
    rw [this]
    exact pow_dvd_pow 2 (by omega)
  have hc2 : 2 ≤ c := by
    have hBle : B ≤ 128 := by
      subst hB
      calc 2 ^ s ≤ 2 ^ 7 := Nat.pow_le_pow_right (by norm_num) hs7
      _ = 128 := by norm_num
    nlinarith
  -- division decomposition
  have hdm := Nat.div_add_mod (v + half) B
  set r := (v + half) % B with hr
  have hrlt : r < B := Nat.mod_lt _ hBpos
  have hvq : B * q + r = v + half := by rw [hq]; exact hdm
  have hform : quantizeChannel bits v = B * q + half := by
    rw [quantizeChannel_eq_div, hq, ← hs, ← hB, ← hh]
  -- if 256 ≤ v + half then B * q = 256 exactly
  have hoverflow : 256 ≤ v + half → B * q = 256 := by
    intro hgt
    have hle : B * q ≤ v + half := by omega
    have hup : v + half < 256 + B := by omega
    have h1 : (256 : ℕ) ≤ B * q := by
      have hceq : B * (c - 1) + B = B * c := by
        have hc1 : c - 1 + 1 = c := by omega
        calc B * (c - 1) + B = B * (c - 1 + 1) := by rw [Nat.mul_succ]
        _ = B * c := by rw [hc1]
      have hlt : B * (c - 1) < B * q := by omega
      have hlt2 : c - 1 < q := Nat.lt_of_mul_lt_mul_left hlt
      calc (256 : ℕ) = B * c := hc
      _ ≤ B * q := mul_le_mul_left' (by omega) B
    have h2 : B * q < B * (c + 1) := by
      have hbc : B * (c + 1) = 256 + B := by rw [Nat.mul_succ, ← hc]
      omega
    have hqc : q < c + 1 := Nat.lt_of_mul_lt_mul_left h2
    have hcq : c ≤ q := by
      by_contra hno
      push_neg at hno
      have : B * q < B * c := (Nat.mul_lt_mul_left hBpos).mpr hno
      omega
    have hqq : q = c := by omega
    rw [hqq, ← hc]
  refine ⟨?_, hform, ?_, ?_, ?_, ?_, ?_⟩
  · -- the literal formula of the claim
    rw [hform, Nat.shiftRight_eq_div_pow, Nat.shiftLeft_eq, hq, hB]
    ring
  · rw [hform, Nat.mul_add_mod]
    exact Nat.mod_eq_of_lt (by omega)
  · -- B * q is a nearest multiple of B to v
    intro m
    rcases lt_trichotomy m q with hm | hm | hm
    · have h1 : B * m + B ≤ B * q :=
        mul_le_of_lt_mul hBpos ((Nat.mul_lt_mul_left hBpos).mpr hm)
      generalize hgen : B * m = t at *
      omega
    · subst hm; exact le_refl _
    · have h1 : B * q + B ≤ B * m :=
        mul_le_of_lt_mul hBpos ((Nat.mul_lt_mul_left hBpos).mpr hm)
      generalize hgen : B * m = t at *
      omega
  · -- ties pick the upper multiple
    intro m habs
    rcases le_or_lt m q with hm | hm
    · exact hm
    · exfalso
      have h1 : B * q + B ≤ B * m :=
        mul_le_of_lt_mul hBpos ((Nat.mul_lt_mul_left hBpos).mpr hm)
      generalize hgen : B * m = t at *
      omega
  · -- in-range iff v + half ≤ 255
    rw [hform]
    constructor
    · intro hle
      by_contra hgt
      push_neg at hgt
      have := hoverflow (by omega)
      omega
    · intro hle
      -- v + half ≤ 255 forces B * q + B ≤ 256
      have hlt : B * q < B * c := by omega
      have := mul_le_of_lt_mul hBpos hlt
      omega
  · -- overflow: v + half > 255 gives exactly 256 + half
    intro hgt
    rw [hform, hoverflow (by omega)]

/-- C1 (witness): the amended statement evaluated at `bits = 6`, `v = 10`
(`shift = 2`, `bucket = 4`, `half_bucket = 2`, `q = 3`). -/
theorem quantizeChannel_spec_witness :
    quantizeChannel 6 10 = 4 * 3 + 2 ∧ quantizeChannel 6 10 % 4 = 2 := by
  have h := quantizeChannel_spec 6 10 2 4 2 3 (by decide) (by decide) (by decide)
    (by decide) (by decide) (by decide) (by decide)
  exact ⟨h.2.1, h.2.2.1⟩

/-- C2: re-quantizing at the same bit depth is not the identity: every
already-quantized channel value is moved up by one full bucket,
`quantize(quantize(v)) = quantize(v) + 2^(8-bits)`.  This contradicts the
claimed idempotence for every input value. -/
theorem quantizeChannel_requantize (bits v : ℕ) (hb : bits ≤ 7) :
    quantizeChannel bits (quantizeChannel bits v) =
      quantizeChannel bits v + 2 ^ (8 - bits) := by
  have hs1 : 1 ≤ 8 - bits := by omega
  have hB2 : (2 : ℕ) ^ (8 - bits) = 2 * 2 ^ (8 - bits - 1) := by
    rw [← pow_succ']
    congr 1
    omega
  have hBpos : 0 < (2 : ℕ) ^ (8 - bits) := pow_pos (by norm_num) _
  rw [quantizeChannel_eq_div bits v, quantizeChannel_eq_div bits
    (2 ^ (8 - bits) * ((v + 2 ^ (8 - bits - 1)) / 2 ^ (8 - bits)) + 2 ^ (8 - bits - 1))]
  have h2 : 2 ^ (8 - bits) * ((v + 2 ^ (8 - bits - 1)) / 2 ^ (8 - bits)) +
      2 ^ (8 - bits - 1) + 2 ^ (8 - bits - 1) =
      2 ^ (8 - bits) * (((v + 2 ^ (8 - bits - 1)) / 2 ^ (8 - bits)) + 1) := by
    rw [Nat.mul_succ]
    omega
  rw [h2, Nat.mul_div_cancel_left _ hBpos, Nat.mul_succ]
  omega

/-- C2 (witness): at 6 bits the quantized value of 0 is the bucket center
2, and re-quantizing 2 yields 6 = 2 + 4, not 2. -/
theorem quantizeChannel_requantize_witness :
    quantizeChannel 6 (quantizeChannel 6 0) = quantizeChannel 6 0 + 2 ^ (8 - 6) ∧
      quantizeChannel 6 0 = 2 := by
  exact ⟨quantizeChannel_requantize 6 0 (by decide), by decide⟩

end QuantizeClaims

section PackClaims

/-- On byte-bounded channels the bitwise packing is positional arithmetic:
`pack_rgb (r,g,b) = r + 256*g + 65536*b`. -/
lemma pack_rgb_eq {r g b : ℕ} (hr : r < 256) (hg : g < 256) :
    pack_rgb (r, g, b) = r + 2 ^ 8 * g + 2 ^ 16 * b := by
  unfold pack_rgb
  simp only [Nat.shiftLeft_eq]
  have hg8 : g * 2 ^ 8 = 2 ^ 8 * g := by ring
  have hb16 : b * 2 ^ 16 = 2 ^ 16 * b := by ring
  rw [hg8, hb16]
  have h1 : r ||| 2 ^ 8 * g = 2 ^ 8 * g + r := by
    rw [Nat.lor_comm]
    exact (Nat.mul_add_lt_is_or (by omega) g).symm
  rw [h1]
  have hlt : 2 ^ 8 * g + r < 2 ^ 16 := by
    have : 2 ^ 8 * g ≤ 2 ^ 8 * 255 := mul_le_mul_left' (by omega) _
    norm_num at this ⊢
    omega
  have h2 : (2 ^ 8 * g + r) ||| 2 ^ 16 * b = 2 ^ 16 * b + (2 ^ 8 * g + r) := by
    rw [Nat.lor_comm]
    exact (Nat.mul_add_lt_is_or hlt b).symm
  rw [h2]
  ring

/-- Unpacking positional arithmetic recovers the bytes. -/
lemma unpack_rgb_eq {r g b : ℕ} (hr : r < 256) (hg : g < 256) (hb : b < 256) :
    unpack_rgb (r + 2 ^ 8 * g + 2 ^ 16 * b) = (r, g, b) := by
  unfold unpack_rgb
  have e255 : (0xff : ℕ) = 2 ^ 8 - 1 := by norm_num
  simp only [e255, Nat.and_pow_two_sub_one_eq_mod, Nat.shiftRight_eq_div_pow]
  refine Prod.ext ?_ (Prod.ext ?_ ?_)
  · show (r + 2 ^ 8 * g + 2 ^ 16 * b) % 2 ^ 8 = r
    norm_num
    omega
  · show (r + 2 ^ 8 * g + 2 ^ 16 * b) / 2 ^ 8 % 2 ^ 8 = g
    norm_num
    omega
  · show (r + 2 ^ 8 * g + 2 ^ 16 * b) / 2 ^ 16 % 2 ^ 8 = b
    norm_num
    omega

/-- Unpacking inverts packing on any byte-bounded triple. -/
lemma unpack_pack {c : RGB} (h1 : c.1 ≤ 255) (h2 : c.2.1 ≤ 255) (h3 : c.2.2 ≤ 255) :
    unpack_rgb (pack_rgb c) = c := by
  obtain ⟨r, g, b⟩ := c
  rw [pack_rgb_eq (Nat.lt_succ_of_le h1) (Nat.lt_succ_of_le h2)]
  exact unpack_rgb_eq (Nat.lt_succ_of_le h1) (Nat.lt_succ_of_le h2) (Nat.lt_succ_of_le h3)

/-- Packing is injective on byte-bounded triples. -/
lemma pack_inj {c d : RGB} (h1 : c.1 ≤ 255) (h2 : c.2.1 ≤ 255) (h3 : c.2.2 ≤ 255)
    (h4 : d.1 ≤ 255) (h5 : d.2.1 ≤ 255) (h6 : d.2.2 ≤ 255)
    (h : pack_rgb c = pack_rgb d) : c = d := by
  have := unpack_pack h1 h2 h3
  rw [h, unpack_pack h4 h5 h6] at this
  exact this.symm

/-- C4: `pack_rgb` and `unpack_rgb` are exact inverses on triples with all
channels in [0,255]: unpacking a packed triple recovers it, packing the
unpacked value of a packed integer is the identity, and the packed layout
places red in the low byte, green in the middle byte and blue in the high
byte. -/
theorem pack_unpack_inverse (r g b : ℕ) (hr : r ≤ 255) (hg : g ≤ 255) (hb : b ≤ 255) :
    unpack_rgb (pack_rgb (r, g, b)) = (r, g, b) ∧
    pack_rgb (unpack_rgb (pack_rgb (r, g, b))) = pack_rgb (r, g, b) ∧
    pack_rgb (r, g, b) % 256 = r ∧
    pack_rgb (r, g, b) / 256 % 256 = g ∧
    pack_rgb (r, g, b) / 65536 % 256 = b := by
  have hP := pack_rgb_eq (r := r) (g := g) (b := b) (by omega) (by omega)
  have hround : unpack_rgb (pack_rgb (r, g, b)) = (r, g, b) :=
    unpack_pack (c := (r, g, b)) hr hg hb
  refine ⟨hround, by rw [hround], ?_, ?_, ?_⟩
  · rw [hP]; norm_num; omega
  · rw [hP]; norm_num; omega
  · rw [hP]; norm_num; omega

/-- C4 (witness): the round trip evaluated at the triple (1, 2, 3),
packed value `1 + 2*256 + 3*65536 = 197121`. -/
theorem pack_unpack_inverse_witness :
    unpack_rgb (pack_rgb (1, 2, 3)) = (1, 2, 3) ∧ pack_rgb (1, 2, 3) % 256 = 1 := by
  have h := pack_unpack_inverse 1 2 3 (by decide) (by decide) (by decide)
  exact ⟨h.1, h.2.2.1⟩

end PackClaims

section ArgMinMax

variable {α : Type} [LinearOrder α]

/-- Index of the first minimal element of a list (numpy `argmin` with its
first-maximal-tie convention on axis 1 of the distance matrix). -/
def argminFirst : List α → ℕ
  | [] => 0
  | x :: xs => if xs.foldr min x < x then argminFirst xs + 1 else 0

/-- Index of the first maximal element of a list (numpy `argmax`). -/
def argmaxFirst : List α → ℕ
  | [] => 0
  | x :: xs => if x < xs.foldr max x then argmaxFirst xs + 1 else 0

lemma foldr_min_le_init (x : α) (xs : List α) : xs.foldr min x ≤ x := by
  induction xs with
  | nil => exact le_refl x
  | cons y ys ih => exact le_trans (min_le_right _ _) ih

lemma foldr_min_le_mem (x : α) {xs : List α} {y : α} (hy : y ∈ xs) :
    xs.foldr min x ≤ y := by
  induction xs with
  | nil => cases hy
  | cons z zs ih =>
      rcases List.mem_cons.mp hy with h | h
      · subst h; exact min_le_left _ _
      · exact le_trans (min_le_right _ _) (ih h)

lemma foldr_min_mem (x : α) (xs : List α) : xs.foldr min x ∈ x :: xs := by
  induction xs with
  | nil => exact List.mem_singleton.mpr rfl
  | cons y ys ih =>
      show min y (ys.foldr min x) ∈ x :: y :: ys
      rcases min_choice y (ys.foldr min x) with h | h
      · rw [h]; exact List.mem_cons_of_mem _ (List.mem_cons_self _ _)
      · rw [h]
        rcases List.mem_cons.mp ih with h2 | h2
        · rw [h2]; exact List.mem_cons_self _ _
        · exact List.mem_cons_of_mem _ (List.mem_cons_of_mem _ h2)

lemma argminFirst_lt_length {l : List α} (h : l ≠ []) :
    argminFirst l < l.length := by
  induction l with
  | nil => exact absurd rfl h
  | cons x xs ih =>
      show (if xs.foldr min x < x then argminFirst xs + 1 else 0) < xs.length + 1
      by_cases hc : xs.foldr min x < x
      · have hxs : xs ≠ [] := by
          intro hnil
          rw [hnil] at hc
          exact absurd hc (lt_irrefl x)
        rw [if_pos hc]
        exact Nat.succ_lt_succ (ih hxs)
      · rw [if_neg hc]
        exact Nat.succ_pos _

lemma getD_argminFirst_le {l : List α} (d : α) (h : l ≠ []) :
    ∀ y ∈ l, l.getD (argminFirst l) d ≤ y := by
  induction l with
  | nil => exact absurd rfl h
  | cons x xs ih =>
      intro y hy
      by_cases hc : xs.foldr min x < x
      · have hxs : xs ≠ [] := by
          intro hnil
          rw [hnil] at hc
          exact absurd hc (lt_irrefl x)
        have hsel : (x :: xs).getD (argminFirst (x :: xs)) d = xs.getD (argminFirst xs) d := by
          show (x :: xs).getD (if xs.foldr min x < x then argminFirst xs + 1 else 0) d = _
          rw [if_pos hc]
          rfl
        rw [hsel]
        rcases List.mem_cons.mp hy with rfl | hx
        · have hmem : xs.foldr min y ∈ xs := by
            rcases List.mem_cons.mp (foldr_min_mem y xs) with h2 | h2
            · exfalso; rw [h2] at hc; exact lt_irrefl y hc
            · exact h2
          exact le_of_lt (lt_of_le_of_lt (ih hxs _ hmem) hc)
        · exact ih hxs _ hx
      · have hsel : (x :: xs).getD (argminFirst (x :: xs)) d = x := by
          show (x :: xs).getD (if xs.foldr min x < x then argminFirst xs + 1 else 0) d = _
          rw [if_neg hc]
          rfl
        rw [hsel]
        rcases List.mem_cons.mp hy with hx | hx
        · exact hx ▸ le_refl x
        · exact le_trans (not_lt.mp hc) (foldr_min_le_mem x hx)

lemma getD_argminFirst_lt {l : List α} (d : α) :
    ∀ j, j < argminFirst l → l.getD (argminFirst l) d < l.getD j d := by
  induction l with
  | nil => intro j hj; simp [argminFirst] at hj
  | cons x xs ih =>
      intro j hj
      by_cases hc : xs.foldr min x < x
      · have hxs : xs ≠ [] := by
          intro hnil
          rw [hnil] at hc
          exact absurd hc (lt_irrefl x)
        have harg : argminFirst (x :: xs) = argminFirst xs + 1 := by
          show (if xs.foldr min x < x then argminFirst xs + 1 else 0) = _
          rw [if_pos hc]
        rw [harg] at hj ⊢
        have hsel : (x :: xs).getD (argminFirst xs + 1) d = xs.getD (argminFirst xs) d := rfl
        rw [hsel]
        cases j with
        | zero =>
            show xs.getD (argminFirst xs) d < x
            have hmem : xs.foldr min x ∈ xs := by
              rcases List.mem_cons.mp (foldr_min_mem x xs) with h2 | h2
              · exfalso; rw [h2] at hc; exact lt_irrefl x hc
              · exact h2
            exact lt_of_le_of_lt (getD_argminFirst_le d hxs _ hmem) hc
        | succ j =>
            exact ih j (Nat.lt_of_succ_lt_succ hj)
      · have harg : argminFirst (x :: xs) = 0 := by
          show (if xs.foldr min x < x then argminFirst xs + 1 else 0) = _
          rw [if_neg hc]
        rw [harg] at hj
        exact absurd hj (Nat.not_lt_zero j)

lemma foldr_max_init_le (x : α) (xs : List α) : x ≤ xs.foldr max x := by
  induction xs with
  | nil => exact le_refl x
  | cons y ys ih => exact le_trans ih (le_max_right _ _)

lemma foldr_max_mem_le (x : α) {xs : List α} {y : α} (hy : y ∈ xs) :
    y ≤ xs.foldr max x := by
  induction xs with
  | nil => cases hy
  | cons z zs ih =>
      rcases List.mem_cons.mp hy with h | h
      · subst h; exact le_max_left _ _
      · exact le_trans (ih h) (le_max_right _ _)

lemma foldr_max_mem (x : α) (xs : List α) : xs.foldr max x ∈ x :: xs := by
  induction xs with
  | nil => exact List.mem_singleton.mpr rfl
  | cons y ys ih =>
      show max y (ys.foldr max x) ∈ x :: y :: ys
      rcases max_choice y (ys.foldr max x) with h | h
      · rw [h]; exact List.mem_cons_of_mem _ (List.mem_cons_self _ _)
      · rw [h]
        rcases List.mem_cons.mp ih with h2 | h2
        · rw [h2]; exact List.mem_cons_self _ _
        · exact List.mem_cons_of_mem _ (List.mem_cons_of_mem _ h2)

lemma argmaxFirst_lt_length {l : List α} (h : l ≠ []) :
    argmaxFirst l < l.length := by
  induction l with
  | nil => exact absurd rfl h
  | cons x xs ih =>
      show (if x < xs.foldr max x then argmaxFirst xs + 1 else 0) < xs.length + 1
      by_cases hc : x < xs.foldr max x
      · have hxs : xs ≠ [] := by
          intro hnil
          rw [hnil] at hc
          exact absurd hc (lt_irrefl x)
        rw [if_pos hc]
        exact Nat.succ_lt_succ (ih hxs)
      · rw [if_neg hc]
        exact Nat.succ_pos _

lemma getD_argmaxFirst_ge {l : List α} (d : α) (h : l ≠ []) :
    ∀ y ∈ l, y ≤ l.getD (argmaxFirst l) d := by
  induction l with
  | nil => exact absurd rfl h
  | cons x xs ih =>
      intro y hy
      by_cases hc : x < xs.foldr max x
      · have hxs : xs ≠ [] := by
          intro hnil
          rw [hnil] at hc
          exact absurd hc (lt_irrefl x)
        have hsel : (x :: xs).getD (argmaxFirst (x :: xs)) d = xs.getD (argmaxFirst xs) d := by
          show (x :: xs).getD (if x < xs.foldr max x then argmaxFirst xs + 1 else 0) d = _
          rw [if_pos hc]
          rfl
        rw [hsel]
        rcases List.mem_cons.mp hy with rfl | hx
        · have hmem : xs.foldr max y ∈ xs := by
            rcases List.mem_cons.mp (foldr_max_mem y xs) with h2 | h2
            · exfalso; rw [h2] at hc; exact lt_irrefl y hc
            · exact h2
          exact le_of_lt (lt_of_lt_of_le hc (ih hxs _ hmem))
        · exact ih hxs _ hx
      · have hsel : (x :: xs).getD (argmaxFirst (x :: xs)) d = x := by
          show (x :: xs).getD (if x < xs.foldr max x then argmaxFirst xs + 1 else 0) d = _
          rw [if_neg hc]
          rfl
        rw [hsel]
        rcases List.mem_cons.mp hy with hx | hx
        · exact hx ▸ le_refl x
        · exact le_trans (foldr_max_mem_le x hx) (not_lt.mp hc)

lemma getD_argmaxFirst_gt {l : List α} (d : α) :
    ∀ j, j < argmaxFirst l → l.getD j d < l.getD (argmaxFirst l) d := by
  induction l with
  | nil => intro j hj; simp [argmaxFirst] at hj
  | cons x xs ih =>
      intro j hj
      by_cases hc : x < xs.foldr max x
      · have hxs : xs ≠ [] := by
          intro hnil
          rw [hnil] at hc
          exact absurd hc (lt_irrefl x)
        have harg : argmaxFirst (x :: xs) = argmaxFirst xs + 1 := by
          show (if x < xs.foldr max x then argmaxFirst xs + 1 else 0) = _
          rw [if_pos hc]
        rw [harg] at hj ⊢
        have hsel : (x :: xs).getD (argmaxFirst xs + 1) d = xs.getD (argmaxFirst xs) d := rfl
        rw [hsel]
        cases j with
        | zero =>
            show x < xs.getD (argmaxFirst xs) d
            have hmem : xs.foldr max x ∈ xs := by
              rcases List.mem_cons.mp (foldr_max_mem x xs) with h2 | h2
              · exfalso; rw [h2] at hc; exact lt_irrefl x hc
              · exact h2
            exact lt_of_lt_of_le hc (getD_argmaxFirst_ge d hxs _ hmem)
        | succ j =>
            exact ih j (Nat.lt_of_succ_lt_succ hj)
      · have harg : argmaxFirst (x :: xs) = 0 := by
          show (if x < xs.foldr max x then argmaxFirst xs + 1 else 0) = _
          rw [if_neg hc]
        rw [harg] at hj
        exact absurd hj (Nat.not_lt_zero j)

end ArgMinMax

section BackgroundClaims

/-- The distinct values of a list in ascending order, as `np.unique`
returns them. -/
def npUnique (l : List ℕ) : List ℕ :=
  List.insertionSort (· ≤ ·) l.dedup

/-- `get_bg_color` from src/notescan.py: quantize the image (default 6
bits), pack every pixel, count the frequency of each distinct packed value
(`np.unique(packed, return_counts=True)` lists the distinct values in
ascending order), select `unique[counts.argmax()]` (numpy `argmax` returns
the first maximal index), and unpack it. -/
def get_bg_color (image : List RGB) (bits : ℕ) : RGB :=
  unpack_rgb ((npUnique ((quantize bits image).map pack_rgb)).getD
    (argmaxFirst ((npUnique ((quantize bits image).map pack_rgb)).map
      (fun u => ((quantize bits image).map pack_rgb).count u))) 0)

lemma npUnique_sorted (l : List ℕ) : (npUnique l).Sorted (· ≤ ·) :=
  List.sorted_insertionSort _ _

lemma npUnique_nodup (l : List ℕ) : (npUnique l).Nodup :=
  (List.perm_insertionSort _ _).nodup_iff.mpr l.nodup_dedup

lemma mem_npUnique {l : List ℕ} {x : ℕ} : x ∈ npUnique l ↔ x ∈ l := by
  unfold npUnique
  rw [List.Perm.mem_iff (List.perm_insertionSort _ _), List.mem_dedup]

/-- Counting after an injective-on-members map preserves counts. -/
lemma count_map_eq {l : List RGB} {f : RGB → ℕ} {c : RGB}
    (hinj : ∀ d ∈ l, f d = f c → d = c) :
    (l.map f).count (f c) = l.count c := by
  induction l with
  | nil => rfl
  | cons d ds ih =>
      have hinj2 : ∀ e ∈ ds, f e = f c → e = c := fun e he => hinj e (List.mem_cons_of_mem _ he)
      by_cases hd : f d = f c
      · have hdc : d = c := hinj d (List.mem_cons_self _ _) hd
        simp [List.count_cons, ih hinj2, hd, hdc]
      · have hdc : d ≠ c := fun hcd => hd (by rw [hcd])
        simp [List.count_cons, ih hinj2, hd, hdc]

/-- C3 (counterexample): on the all-white single-pixel image the quantized
color (258,258,258) strictly dominates (it is the only color), but because
258 > 255 its packed representation bleeds across byte fields and
`get_bg_color` returns (2,3,3) — neither the dominant quantized color nor
anything near white.  So the claim "returns exactly that color" fails. -/
theorem get_bg_color_white_cex :
    quantize 6 [(255, 255, 255)] = [(258, 258, 258)] ∧
    get_bg_color [(255, 255, 255)] 6 = (2, 3, 3) ∧
    ((2, 3, 3) : RGB) ≠ (258, 258, 258) ∧ ((2, 3, 3) : RGB) ≠ (255, 255, 255) := by
  refine ⟨by decide, by decide, by decide, by decide⟩

/-- C3 (amended): `get_bg_color` always returns the unpacked value of the
packed quantized color with the highest frequency, ties broken by the
first (smallest) packed value in ascending order; and whenever every
quantized channel value is byte-bounded (≤ 255, which requires every input
channel ≤ 255 - half_bucket) a strictly dominating quantized color is
returned exactly. -/
theorem get_bg_color_spec (image : List RGB) (himg : image ≠ []) :
    (∃ m, m ∈ (quantize 6 image).map pack_rgb ∧
      get_bg_color image 6 = unpack_rgb m ∧
      (∀ p ∈ (quantize 6 image).map pack_rgb,
        ((quantize 6 image).map pack_rgb).count p ≤
          ((quantize 6 image).map pack_rgb).count m) ∧
      (∀ p ∈ (quantize 6 image).map pack_rgb,
        ((quantize 6 image).map pack_rgb).count p =
          ((quantize 6 image).map pack_rgb).count m → m ≤ p)) ∧
    (∀ c ∈ quantize 6 image,
      (∀ d ∈ quantize 6 image, d.1 ≤ 255 ∧ d.2.1 ≤ 255 ∧ d.2.2 ≤ 255) →
      (∀ d ∈ quantize 6 image, d ≠ c →
        (quantize 6 image).count d < (quantize 6 image).count c) →
      get_bg_color image 6 = c) := by
  classical
  set qlist := quantize 6 image with hqlist
  set packed := qlist.map pack_rgb with hpacked
  set uniq := npUnique packed with huniq
  set counts := uniq.map (fun u => packed.count u) with hcounts
  have hqne : qlist ≠ [] := by
    rw [hqlist]
    unfold quantize
    simpa using himg
  have hpne : packed ≠ [] := by
    rw [hpacked]
    simpa using hqne
  have hune : uniq ≠ [] := by
    obtain ⟨x, hx⟩ := List.exists_mem_of_ne_nil packed hpne
    have : x ∈ uniq := by rw [huniq, mem_npUnique]; exact hx
    exact List.ne_nil_of_mem this
  have hcne : counts ≠ [] := by
    rw [hcounts]
    simpa using hune
  have hlen : counts.length = uniq.length := by rw [hcounts, List.length_map]
  have hi : argmaxFirst counts < uniq.length := by
    rw [← hlen]
    exact argmaxFirst_lt_length hcne
  set istar := argmaxFirst counts with histar
  set m := uniq.getD istar 0 with hm
  have hmget : m = uniq[istar] := List.getD_eq_getElem uniq 0 hi
  have hmmemu : m ∈ uniq := by rw [hmget]; exact List.getElem_mem hi
  have hmmem : m ∈ packed := mem_npUnique.mp (huniq ▸ hmmemu)
  -- counts.getD j 0 is the count of uniq.getD j 0
  have hcg : ∀ j, (hj : j < uniq.length) → counts.getD j 0 = packed.count (uniq.getD j 0) := by
    intro j hj
    have hj2 : j < counts.length := by rw [hlen]; exact hj
    rw [List.getD_eq_getElem counts 0 hj2, List.getD_eq_getElem uniq 0 hj]
    exact List.getElem_map _
  have hgbg : get_bg_color image 6 = unpack_rgb m := rfl
  -- maximality of the count of m
  have hmax : ∀ p ∈ packed, packed.count p ≤ packed.count m := by
    intro p hp
    have hpu : p ∈ uniq := by rw [huniq, mem_npUnique]; exact hp
    have h1 : packed.count p ∈ counts := by
      rw [hcounts]
      exact List.mem_map_of_mem _ hpu
    have h2 := getD_argmaxFirst_ge 0 hcne _ h1
    rw [← histar, hcg istar hi, ← hm] at h2
    exact h2
  -- among maximal counts, m is the smallest packed value
  have hmin : ∀ p ∈ packed, packed.count p = packed.count m → m ≤ p := by
    intro p hp hcount
    have hpu : p ∈ uniq := by rw [huniq, mem_npUnique]; exact hp
    obtain ⟨jp, hjp, hjpeq⟩ := List.getElem_of_mem hpu
    rcases lt_trichotomy jp istar with hlt | heq | hgt
    · exfalso
      have := getD_argmaxFirst_gt 0 jp (histar ▸ hlt)
      rw [← histar] at this
      rw [hcg istar hi, hcg jp hjp] at this
      rw [← hm] at this
      have hpj : uniq.getD jp 0 = p := by
        rw [List.getD_eq_getElem uniq 0 hjp, hjpeq]
      rw [hpj] at this
      omega
    · rw [hm, ← heq, List.getD_eq_getElem uniq 0 hjp, hjpeq]
    · have hsorted := npUnique_sorted packed
      have hrel := hsorted.rel_get_of_lt (a := ⟨istar, hi⟩) (b := ⟨jp, hjp⟩) hgt
      rw [List.get_eq_getElem, List.get_eq_getElem] at hrel
      rw [hmget, ← hjpeq]
      exact hrel
  refine ⟨⟨m, hmmem, hgbg, hmax, hmin⟩, ?_⟩
  intro c hc hrange hdom
  have hcr := hrange c hc
  -- on byte-bounded colors, packing is injective, so counts transfer
  have hcountc : packed.count (pack_rgb c) = qlist.count c := by
    rw [hpacked]
    exact count_map_eq (fun d hd hdc =>
      pack_inj (hrange d hd).1 (hrange d hd).2.1 (hrange d hd).2.2 hcr.1 hcr.2.1 hcr.2.2 hdc)
  obtain ⟨d0, hd0, hd0eq⟩ := List.mem_map.mp hmmem
  by_cases hdc : d0 = c
  · rw [hgbg, ← hd0eq, hdc, unpack_pack hcr.1 hcr.2.1 hcr.2.2]
  · exfalso
    have hd0r := hrange d0 hd0
    have hcountd0 : packed.count (pack_rgb d0) = qlist.count d0 := by
      rw [hpacked]
      exact count_map_eq (fun d hd hdd =>
        pack_inj (hrange d hd).1 (hrange d hd).2.1 (hrange d hd).2.2
          hd0r.1 hd0r.2.1 hd0r.2.2 hdd)
    have h1 : packed.count (pack_rgb c) ≤ packed.count m :=
      hmax _ (List.mem_map_of_mem _ hc)
    rw [← hd0eq] at h1
    rw [hcountc, hcountd0] at h1
    have h2 := hdom d0 hd0 hdc
    omega

/-- C3 (witness): on the single-pixel image (100,100,100) the quantized
color (102,102,102) is byte-bounded and strictly dominates, and
`get_bg_color` returns it exactly. -/
theorem get_bg_color_spec_witness :
    get_bg_color [(100, 100, 100)] 6 = (102, 102, 102) := by
  have h := (get_bg_color_spec [(100, 100, 100)] (by decide)).2 (102, 102, 102)
    (by decide) (by decide) (by decide)
  exact h

end BackgroundClaims

section NearestClaims

/-- Squared Euclidean distance in RGB space, from `nearest` in
src/notescan.py (`((pixels - centers[i])**2).sum(axis=1)` after
`astype(int)`). -/
def sqdist (p c : RGB) : ℤ :=
  ((p.1 : ℤ) - (c.1 : ℤ)) ^ 2 + ((p.2.1 : ℤ) - (c.2.1 : ℤ)) ^ 2 +
    ((p.2.2 : ℤ) - (c.2.2 : ℤ)) ^ 2

/-- `nearest` from src/notescan.py: each pixel receives the index of the
center minimising the squared Euclidean distance;
`dists.argmin(axis=1)` returns the first minimal index on ties. -/
def nearest (pixels centers : List RGB) : List ℕ :=
  pixels.map fun p => argminFirst (centers.map (fun c => sqdist p c))

lemma sqdist_nonneg (p c : RGB) : 0 ≤ sqdist p c := by
  unfold sqdist
  positivity

lemma sqdist_self (p : RGB) : sqdist p p = 0 := by
  unfold sqdist
  ring

lemma sqdist_eq_zero {p c : RGB} (h : sqdist p c = 0) : p = c := by
  unfold sqdist at h
  have s1 := sq_nonneg ((p.1 : ℤ) - (c.1 : ℤ))
  have s2 := sq_nonneg ((p.2.1 : ℤ) - (c.2.1 : ℤ))
  have s3 := sq_nonneg ((p.2.2 : ℤ) - (c.2.2 : ℤ))
  have h1 : ((p.1 : ℤ) - (c.1 : ℤ)) ^ 2 = 0 := by nlinarith
  have h2 : ((p.2.1 : ℤ) - (c.2.1 : ℤ)) ^ 2 = 0 := by nlinarith
  have h3 : ((p.2.2 : ℤ) - (c.2.2 : ℤ)) ^ 2 = 0 := by nlinarith
  have e1 : p.1 = c.1 := by exact_mod_cast sub_eq_zero.mp (sq_eq_zero_iff.mp h1)
  have e2 : p.2.1 = c.2.1 := by exact_mod_cast sub_eq_zero.mp (sq_eq_zero_iff.mp h2)
  have e3 : p.2.2 = c.2.2 := by exact_mod_cast sub_eq_zero.mp (sq_eq_zero_iff.mp h3)
  exact Prod.ext e1 (Prod.ext e2 e3)

/-- C8: with a non-empty center list, `nearest` assigns each pixel an
in-range center index whose squared Euclidean distance is minimal, and on
ties (equal minimal distance) the lowest center index is chosen; in
particular, when the pixels are exactly the (distinct) centers, every
pixel is assigned its own center — the label list is `0, 1, ..., k-1`. -/
theorem nearest_spec (pixels centers : List RGB) (hc : centers ≠ []) :
    (∀ i, i < pixels.length →
      (nearest pixels centers).getD i 0 < centers.length ∧
      (∀ j, j < centers.length →
        sqdist (pixels.getD i (0, 0, 0))
            (centers.getD ((nearest pixels centers).getD i 0) (0, 0, 0)) ≤
          sqdist (pixels.getD i (0, 0, 0)) (centers.getD j (0, 0, 0)) ∧
        (sqdist (pixels.getD i (0, 0, 0)) (centers.getD j (0, 0, 0)) =
            sqdist (pixels.getD i (0, 0, 0))
              (centers.getD ((nearest pixels centers).getD i 0) (0, 0, 0)) →
          (nearest pixels centers).getD i 0 ≤ j))) ∧
    (pixels = centers → centers.Nodup →
      nearest pixels centers = List.range centers.length) := by
  constructor
  · intro i hi
    have hpi : pixels.getD i (0, 0, 0) = pixels[i] := List.getD_eq_getElem pixels _ hi
    set p := pixels.getD i (0, 0, 0) with hp
    set L := centers.map (fun c => sqdist p c) with hL
    have hLlen : L.length = centers.length := by rw [hL, List.length_map]
    have hLne : L ≠ [] := by rw [hL]; simpa using hc
    have hmaplen : i < (nearest pixels centers).length := by
      unfold nearest; rw [List.length_map]; exact hi
    have hnth : (nearest pixels centers).getD i 0 = argminFirst L := by
      rw [List.getD_eq_getElem _ 0 hmaplen]
      have hstep : (nearest pixels centers)[i] =
          argminFirst (centers.map (fun c => sqdist (pixels[i]) c)) := by
        unfold nearest
        exact List.getElem_map _
      rw [hstep, hL, hpi]
    have hbound : argminFirst L < centers.length := by
      rw [← hLlen]; exact argminFirst_lt_length hLne
    have hLval : ∀ j, (hj : j < centers.length) →
        L.getD j 0 = sqdist p (centers.getD j (0, 0, 0)) := by
      intro j hj
      have hj2 : j < L.length := by rw [hLlen]; exact hj
      rw [List.getD_eq_getElem L 0 hj2, List.getD_eq_getElem centers _ hj]
      exact List.getElem_map _
    rw [hnth]
    refine ⟨hbound, ?_⟩
    intro j hj
    have hj2 : j < L.length := by rw [hLlen]; exact hj
    have hmemj : L.getD j 0 ∈ L := by
      rw [List.getD_eq_getElem L 0 hj2]
      exact List.getElem_mem hj2
    constructor
    · rw [← hLval _ hbound, ← hLval _ hj]
      exact getD_argminFirst_le 0 hLne _ hmemj
    · intro heq
      by_contra hno
      push_neg at hno
      have hlt := getD_argminFirst_lt (0 : ℤ) j hno
      rw [hLval _ hbound, hLval _ hj] at hlt
      omega
  · intro hpc hnd
    subst hpc
    apply List.ext_getElem
    · unfold nearest
      rw [List.length_map, List.length_range]
    · intro i h1 h2
      rw [List.getElem_range]
      have hi : i < pixels.length := by
        unfold nearest at h1
        rw [List.length_map] at h1
        exact h1
      have hstep : (nearest pixels pixels)[i] =
          argminFirst (pixels.map (fun c => sqdist (pixels[i]) c)) := by
        unfold nearest
        exact List.getElem_map _
      rw [hstep]
      set L := pixels.map (fun c => sqdist (pixels[i]) c) with hL
      have hLlen : L.length = pixels.length := by rw [hL, List.length_map]
      have hLne : L ≠ [] := by
        rw [hL]
        simpa using List.ne_nil_of_mem (List.getElem_mem hi)
      have hbound : argminFirst L < pixels.length := by
        rw [← hLlen]; exact argminFirst_lt_length hLne
      have hLval : ∀ j, (hj : j < pixels.length) →
          L.getD j 0 = sqdist (pixels[i]) (pixels[j]) := by
        intro j hj
        have hj2 : j < L.length := by rw [hLlen]; exact hj
        rw [List.getD_eq_getElem L 0 hj2]
        have := List.getElem_map (l := pixels) (f := fun c => sqdist (pixels[i]) c)
          (h := hj2)
        rw [this]
      have hzero : L.getD i 0 = 0 := by
        rw [hLval i hi]
        exact sqdist_self _
      have hmemi : L.getD i 0 ∈ L := by
        have hi2 : i < L.length := by rw [hLlen]; exact hi
        rw [List.getD_eq_getElem L 0 hi2]
        exact List.getElem_mem hi2
      have hminle := getD_argminFirst_le (0 : ℤ) hLne _ hmemi
      rw [hzero] at hminle
      have hmin0 : L.getD (argminFirst L) 0 = 0 := by
        have := sqdist_nonneg (pixels[i]) (pixels[argminFirst L])
        rw [← hLval _ hbound] at this
        omega
      have heqc : pixels[i] = pixels[argminFirst L] := by
        have := hLval _ hbound
        rw [hmin0] at this
        exact sqdist_eq_zero this.symm
      exact (hnd.getElem_inj_iff.mp heqc.symm)

/-- C8 (witness): two pixels coinciding with two distinct centers are
labelled 0 and 1 — each to its own center. -/
theorem nearest_spec_witness :
    nearest [(0, 0, 0), (10, 10, 10)] [(0, 0, 0), (10, 10, 10)] = List.range 2 := by
  exact (nearest_spec [(0, 0, 0), (10, 10, 10)] [(0, 0, 0), (10, 10, 10)]
    (by decide)).2 rfl (by decide)

end NearestClaims

section EncodeClaims

/-- The per-run numeric options parsed by the excluded CLI layer
(src/notescan.py `notescan_main`); floats are modelled as rationals. -/
structure Options where
  value_threshold : ℚ
  sat_threshold : ℚ
  num_colors : ℕ
  quantize_fraction : ℚ
  saturate : Bool
  white_bg : Bool

/-- The default options: `-v 25%`, `-s 20%`, `-n 8`, `-q 5%`, saturate on,
white background off. -/
def defaultOptions : Options :=
  ⟨1 / 4, 1 / 5, 8, 1 / 20, true, false⟩

/-- Python 2 `int(round(x))` for non-negative `x`: round half away from
zero is `floor (x + 1/2)`. -/
def pyRound (x : ℚ) : ℕ :=
  (⌊x + 1 / 2⌋).toNat

/-- `num_train = int(round(num_pixels*options.quantize_fraction))` from
`encode` in src/notescan.py. -/
def num_train (fg_pixels : List RGB) (options : Options) : ℕ :=
  pyRound ((fg_pixels.length : ℚ) * options.quantize_fraction)

/-- The training sample `fg_pixels[idx[:num_train]]` from `encode`;
`np.random.shuffle(idx)` is modelled by the explicit index order `σ`
(the spec asks for an injectable random source). -/
def trainSample (σ : List ℕ) (fg_pixels : List RGB) (options : Options) : List RGB :=
  (σ.take (num_train fg_pixels options)).filterMap (fun i => fg_pixels[i]?)

/-- Modelled from the spec: `scipy.cluster.vq.kmeans` is external library
code, not part of this repository.  Per §4.6 of the spec the clustering
stage produces `num_colors - 1` representative colors and "must tolerate
fewer foreground pixels than the requested cluster count by reducing the
number of output clusters gracefully", so the model returns `min k n`
centers.  Only the number of centers matters to the claims below; the
center values (Lloyd iteration on the random sample) are abstracted as a
selection of training pixels. -/
def kmeans (train : List RGB) (k : ℕ) : List RGB :=
  train.take k

/-- `astype(np.uint8)` on a color triple: each channel is taken mod 256. -/
def rgbMod256 (c : RGB) : RGB :=
  (c.1 % 256, c.2.1 % 256, c.2.2 % 256)

/-- `nearest` as numpy executes it inside `encode`: `argmin(axis=1)` on a
zero-width distance matrix raises, so an empty center list with a
non-empty pixel list is a crash (`none`). -/
def nearestOpt (pixels centers : List RGB) : Option (List ℕ) :=
  if centers = [] ∧ pixels ≠ [] then none else some (nearest pixels centers)

/-- `encode` from src/notescan.py: cluster a random sample of the
foreground pixels, label every foreground pixel with its nearest center
(offset by one to reserve palette index 0), and prepend the background
color to the centers to form the palette (`np.vstack` + `astype(uint8)`). -/
def encode (σ : List ℕ) (bg_color : RGB) (fg_pixels : List RGB) (options : Options) :
    Option (List ℕ × List RGB) :=
  (nearestOpt fg_pixels (kmeans (trainSample σ fg_pixels options) (options.num_colors - 1))).map
    (fun labels => (labels.map (· + 1),
      (bg_color :: kmeans (trainSample σ fg_pixels options) (options.num_colors - 1)).map
        rgbMod256))

lemma length_filterMap_of_all_some {β : Type} {l : List ℕ} {f : ℕ → Option β}
    (h : ∀ a ∈ l, (f a).isSome) : (l.filterMap f).length = l.length := by
  induction l with
  | nil => rfl
  | cons a as ih =>
      have ha := h a (List.mem_cons_self _ _)
      obtain ⟨b, hb⟩ := Option.isSome_iff_exists.mp ha
      rw [List.filterMap_cons, hb]
      simp only [List.length_cons]
      rw [ih (fun x hx => h x (List.mem_cons_of_mem _ hx))]

/-- C5 (counterexample): the claim premise holds — 7 foreground pixels,
`num_colors - 1 = 7` — but with the default 5% sampling fraction the
training sample size is `round(0.35) = 0`, no cluster centers exist, and
`encode` crashes (numpy argmin over zero centers) instead of producing an
8-entry palette. -/
theorem encode_small_sample_cex :
    (List.replicate 7 ((10, 10, 10) : RGB)).length = 7 ∧
    defaultOptions.num_colors - 1 ≤ 7 ∧
    encode (List.range 7) (2, 2, 2) (List.replicate 7 (10, 10, 10)) defaultOptions = none := by
  refine ⟨by simp, by norm_num [defaultOptions], ?_⟩
  have h1 : num_train (List.replicate 7 ((10, 10, 10) : RGB)) defaultOptions = 0 := by
    unfold num_train defaultOptions pyRound
    norm_num
  have htr : trainSample (List.range 7) (List.replicate 7 (10, 10, 10)) defaultOptions = [] := by
    unfold trainSample
    rw [h1]
    rfl
  unfold encode
  rw [htr]
  have hker : kmeans [] (defaultOptions.num_colors - 1) = [] := rfl
  rw [hker]
  have hno : nearestOpt (List.replicate 7 ((10, 10, 10) : RGB)) [] = none := by
    unfold nearestOpt
    rw [if_pos ⟨rfl, by simp⟩]
  rw [hno]
  rfl

/-- C5 (amended): whenever the training-sample size
`int(round(num_pixels * quantize_fraction))` is at least `num_colors - 1`
(and at most the pixel count, with `num_colors ≥ 2` and a valid shuffle
order), `encode` succeeds and the palette has exactly `num_colors`
entries with entry 0 equal to the given background color.  The original
premise — only `num_pixels ≥ num_colors - 1` — is insufficient, because
the 5% sampling can round to an empty training sample (see the
counterexample). -/
theorem encode_palette_size (σ : List ℕ) (bg : RGB) (fg : List RGB) (opts : Options)
    (hσlen : σ.length = fg.length) (hσmem : ∀ i ∈ σ, i < fg.length)
    (hk : 2 ≤ opts.num_colors)
    (ht : opts.num_colors - 1 ≤ num_train fg opts)
    (htn : num_train fg opts ≤ fg.length)
    (hbg : bg.1 ≤ 255 ∧ bg.2.1 ≤ 255 ∧ bg.2.2 ≤ 255) :
    ∃ labels palette, encode σ bg fg opts = some (labels, palette) ∧
      palette.length = opts.num_colors ∧ palette.head? = some bg := by
  set t := num_train fg opts with htdef
  have htrlen : (trainSample σ fg opts).length = t := by
    unfold trainSample
    rw [← htdef]
    rw [length_filterMap_of_all_some]
    · rw [List.length_take, hσlen]
      omega
    · intro a ha
      have hmem : a ∈ σ := List.mem_of_mem_take ha
      have := hσmem a hmem
      simp [List.getElem?_eq_getElem this]
  have hclen : (kmeans (trainSample σ fg opts) (opts.num_colors - 1)).length =
      opts.num_colors - 1 := by
    unfold kmeans
    rw [List.length_take, htrlen]
    omega
  have hcne : kmeans (trainSample σ fg opts) (opts.num_colors - 1) ≠ [] := by
    intro hnil
    rw [hnil] at hclen
    simp at hclen
    omega
  have hnopt : nearestOpt fg (kmeans (trainSample σ fg opts) (opts.num_colors - 1)) =
      some (nearest fg (kmeans (trainSample σ fg opts) (opts.num_colors - 1))) := by
    unfold nearestOpt
    rw [if_neg (fun h => hcne h.1)]
  refine ⟨(nearest fg (kmeans (trainSample σ fg opts) (opts.num_colors - 1))).map (· + 1),
    ((bg :: kmeans (trainSample σ fg opts) (opts.num_colors - 1)).map rgbMod256), ?_, ?_, ?_⟩
  · unfold encode
    rw [hnopt]
    rfl
  · rw [List.length_map, List.length_cons, hclen]
    omega
  · rw [List.map_cons]
    have : rgbMod256 bg = bg := by
      unfold rgbMod256
      obtain ⟨r, g, b⟩ := bg
      refine Prod.ext ?_ (Prod.ext ?_ ?_)
      · exact Nat.mod_eq_of_lt (Nat.lt_succ_of_le hbg.1)
      · exact Nat.mod_eq_of_lt (Nat.lt_succ_of_le hbg.2.1)
      · exact Nat.mod_eq_of_lt (Nat.lt_succ_of_le hbg.2.2)
    rw [this]
    rfl

/-- Options with `num_colors = 2`, other settings at their defaults. -/
def optsTwo : Options :=
  ⟨1 / 4, 1 / 5, 2, 1 / 20, true, false⟩

/-- C5 (witness): 20 foreground pixels at `num_colors = 2` give a
training sample of `round(1.0) = 1 ≥ num_colors - 1`, so the palette has
exactly 2 entries headed by the background color. -/
theorem encode_palette_size_witness :
    ∃ labels palette,
      encode (List.range 20) (2, 2, 2) (List.replicate 20 (10, 10, 10)) optsTwo =
        some (labels, palette) ∧
      palette.length = optsTwo.num_colors ∧ palette.head? = some (2, 2, 2) := by
  have ht : num_train (List.replicate 20 ((10, 10, 10) : RGB)) optsTwo = 1 := by
    unfold num_train optsTwo pyRound
    norm_num
  exact encode_palette_size (List.range 20) (2, 2, 2) (List.replicate 20 (10, 10, 10)) optsTwo
    (by simp) (fun i hi => by simpa using List.mem_range.mp hi)
    (by norm_num [optsTwo]) (by rw [ht]; norm_num [optsTwo]) (by rw [ht]; simp)
    (by norm_num)

/-- C6: degenerate inputs are NOT all handled gracefully.  A single
foreground pixel with the default options (8 colors, 5% sample) yields an
empty training sample, hence zero cluster centers, and the
nearest-assignment step crashes (with real scipy, `kmeans` itself raises
on an empty observation array); only the zero-foreground case survives
under the spec-modelled graceful clustering, producing the one-entry
palette `[bg_color]`. -/
theorem encode_degenerate_crash :
    encode [0] (2, 2, 2) [(10, 10, 10)] defaultOptions = none ∧
    encode [] (2, 2, 2) [] defaultOptions = some ([], [(2, 2, 2)]) := by
  constructor
  · have h1 : num_train [((10, 10, 10) : RGB)] defaultOptions = 0 := by
      unfold num_train defaultOptions pyRound
      norm_num
    have htr : trainSample [0] [(10, 10, 10)] defaultOptions = [] := by
      unfold trainSample
      rw [h1]
      rfl
    unfold encode
    rw [htr]
    have hker : kmeans [] (defaultOptions.num_colors - 1) = [] := rfl
    rw [hker]
    have hno : nearestOpt [((10, 10, 10) : RGB)] [] = none := by
      unfold nearestOpt
      rw [if_pos ⟨rfl, by simp⟩]
    rw [hno]
    rfl
  · have h0 : num_train ([] : List RGB) defaultOptions = 0 := by
      unfold num_train defaultOptions pyRound
      norm_num
    have htr : trainSample [] [] defaultOptions = [] := by
      unfold trainSample
      rw [h0]
      rfl
    unfold encode
    rw [htr]
    have hker : kmeans [] (defaultOptions.num_colors - 1) = [] := rfl
    rw [hker]
    have hsome : nearestOpt ([] : List RGB) [] = some (nearest [] []) := by
      unfold nearestOpt
      rw [if_neg (fun h => h.2 rfl)]
    rw [hsome]
    rfl

end EncodeClaims

section MaskClaims

/-- `rgb_to_sv` from src/notescan.py: `V = Cmax/255`,
`S = (Cmax - Cmin)/Cmax` with `S = 0` where `Cmax == 0`
(`np.where(Cmax == 0, 0, S)`); float arithmetic over `ℚ`. -/
def rgb_to_sv (c : RGB) : ℚ × ℚ :=
  (if max (c.1 : ℚ) (max (c.2.1 : ℚ) (c.2.2 : ℚ)) = 0 then 0
    else (max (c.1 : ℚ) (max (c.2.1 : ℚ) (c.2.2 : ℚ)) -
      min (c.1 : ℚ) (min (c.2.1 : ℚ) (c.2.2 : ℚ))) /
        max (c.1 : ℚ) (max (c.2.1 : ℚ) (c.2.2 : ℚ)),
   max (c.1 : ℚ) (max (c.2.1 : ℚ) (c.2.2 : ℚ)) / 255)

/-- The background mask of `smoosh` (src/notescan.py):
`bg = (V_diff < value_threshold) & (S_diff < sat_threshold)`. -/
def bgMask (img : List RGB) (bg : RGB) (tv ts : ℚ) : List Bool :=
  img.map fun p =>
    decide (|(rgb_to_sv p).2 - (rgb_to_sv bg).2| < tv) &&
      decide (|(rgb_to_sv p).1 - (rgb_to_sv bg).1| < ts)

/-- Number of pixels classified as background. -/
def bgCount (img : List RGB) (bg : RGB) (tv ts : ℚ) : ℕ :=
  (bgMask img bg tv ts).count true

lemma count_true_map_mono {l : List RGB} {f g : RGB → Bool}
    (h : ∀ x ∈ l, f x = true → g x = true) :
    (l.map f).count true ≤ (l.map g).count true := by
  induction l with
  | nil => exact le_refl 0
  | cons a as ih =>
      have ih2 := ih (fun x hx => h x (List.mem_cons_of_mem _ hx))
      simp only [List.map_cons, List.count_cons]
      by_cases hf : f a = true
      · have hg := h a (List.mem_cons_self _ _) hf
        rw [hf, hg]
        simpa using ih2
      · have hf0 : f a = false := by revert hf; cases f a <;> simp
        rw [hf0]
        cases hga : g a <;> simp <;> omega

/-- C7: enlarging either threshold never shrinks the set of pixels
classified as background — the background count is monotone in both the
value threshold and the saturation threshold. -/
theorem bgMask_monotone (img : List RGB) (bg : RGB) (tv tv2 ts ts2 : ℚ)
    (hv : tv ≤ tv2) (hs : ts ≤ ts2) :
    bgCount img bg tv ts ≤ bgCount img bg tv2 ts2 := by
  unfold bgCount bgMask
  apply count_true_map_mono
  intro p _ hp
  simp only [Bool.and_eq_true, decide_eq_true_eq] at hp ⊢
  exact ⟨lt_of_lt_of_le hp.1 hv, lt_of_lt_of_le hp.2 hs⟩

/-- C7 (witness): the monotonicity applied to a concrete one-pixel image,
raising the thresholds from (1/4, 1/5) to (1/2, 1/2). -/
theorem bgMask_monotone_witness :
    bgCount [(0, 0, 0)] (0, 0, 0) (1 / 4) (1 / 5) ≤
      bgCount [(0, 0, 0)] (0, 0, 0) (1 / 2) (1 / 2) := by
  exact bgMask_monotone [(0, 0, 0)] (0, 0, 0) (1 / 4) (1 / 2) (1 / 5) (1 / 2)
    (by norm_num) (by norm_num)

end MaskClaims

section PostprocessClaims

/-- All channel values of a palette, flattened, as the numpy code sees
them when taking the global `palette.min()` / `palette.max()`. -/
def paletteChannels (p : List RGBQ) : List ℚ :=
  (p.map (fun c => [c.1, c.2.1, c.2.2])).flatten

/-- Minimum of a non-empty list (0 on the empty list, which the code
never queries). -/
def minD : List ℚ → ℚ
  | [] => 0
  | x :: xs => xs.foldr min x

/-- Maximum of a non-empty list. -/
def maxD : List ℚ → ℚ
  | [] => 0
  | x :: xs => xs.foldr max x

/-- `pmin = palette.min()` from `smoosh`. -/
def pMin (p : List RGBQ) : ℚ := minD (paletteChannels p)

/-- `pmax = palette.max()` from `smoosh`. -/
def pMax (p : List RGBQ) : ℚ := maxD (paletteChannels p)

/-- The per-channel contrast stretch `255 * (x - pmin)/(pmax - pmin)`. -/
def rescaleChan (pmin pmax x : ℚ) : ℚ :=
  255 * (x - pmin) / (pmax - pmin)

/-- The rescaled palette `255 * (palette - pmin)/(pmax - pmin)`. -/
def saturatedPalette (p : List RGBQ) : List RGBQ :=
  p.map fun c =>
    (rescaleChan (pMin p) (pMax p) c.1, rescaleChan (pMin p) (pMax p) c.2.1,
      rescaleChan (pMin p) (pMax p) c.2.2)

/-- The saturate stage of `smoosh`.  When `pmax == pmin` the numpy
division is 0/0 (NaN palette, undefined); that is modelled as `none`. -/
def saturateStep (p : List RGBQ) : Option (List RGBQ) :=
  if pMax p - pMin p = 0 then none else some (saturatedPalette p)

/-- `astype(np.uint8)` on the float palette (values in [0,255] truncate
to their integer part). -/
def ratFloorRGB (c : RGBQ) : RGB :=
  ((⌊c.1⌋).toNat, (⌊c.2.1⌋).toNat, (⌊c.2.2⌋).toNat)

/-- `palette[0] = (255,255,255)` from `smoosh`. -/
def whiteOverride (p : List RGBQ) : List RGBQ :=
  match p with
  | [] => []
  | _ :: rest => (255, 255, 255) :: rest

/-- The palette post-processing tail of `smoosh` (src/notescan.py lines
184-196): optional saturate, optional white-background override of entry
0, then `astype(np.uint8)`; the label map is returned untouched. -/
def postprocess (saturate white_bg : Bool) (labels : List ℕ) (palette : List RGBQ) :
    Option (List ℕ × List RGB) :=
  match (if saturate then saturateStep palette else some palette) with
  | none => none
  | some p1 => some (labels, ((if white_bg then whiteOverride p1 else p1).map ratFloorRGB))

lemma pMin_le_mem (p : List RGBQ) : ∀ x ∈ paletteChannels p, pMin p ≤ x := by
  unfold pMin
  cases h : paletteChannels p with
  | nil => intro x hx; simp at hx
  | cons a as =>
      intro x hx
      show as.foldr min a ≤ x
      rcases List.mem_cons.mp hx with rfl | hx
      · exact foldr_min_le_init x as
      · exact foldr_min_le_mem a hx

lemma mem_le_pMax (p : List RGBQ) : ∀ x ∈ paletteChannels p, x ≤ pMax p := by
  unfold pMax
  cases h : paletteChannels p with
  | nil => intro x hx; simp at hx
  | cons a as =>
      intro x hx
      show x ≤ as.foldr max a
      rcases List.mem_cons.mp hx with rfl | hx
      · exact foldr_max_init_le x as
      · exact foldr_max_mem_le a hx

lemma map_tail {α β : Type} (f : α → β) (l : List α) :
    (l.map f).tail = l.tail.map f := by
  cases l <;> rfl

/-- C9: the optional post-processing touches only the palette.  The label
map is returned unchanged for every flag combination; when `saturate` is
on (and the palette has two distinct channel values) every channel of
every entry is rescaled by the single global affine map sending the
global minimum channel to 0 and the global maximum to 255, all results
staying in [0,255]; when `white_bg` is on, entry 0 becomes exactly
(255,255,255) after saturation while the remaining entries are exactly
the (possibly saturated) originals. -/
theorem postprocess_spec (sat wbg : Bool) (labels : List ℕ) (palette : List RGBQ)
    (hne : palette ≠ []) (hsat : sat = true → pMin palette < pMax palette) :
    ∃ p2, postprocess sat wbg labels palette = some (labels, p2) ∧
      (sat = true → wbg = false → p2 = (saturatedPalette palette).map ratFloorRGB) ∧
      (sat = false → wbg = false → p2 = palette.map ratFloorRGB) ∧
      (wbg = true → p2.head? = some (255, 255, 255) ∧
        p2.tail =
          ((if sat = true then saturatedPalette palette else palette).tail).map ratFloorRGB) ∧
      (sat = true →
        rescaleChan (pMin palette) (pMax palette) (pMin palette) = 0 ∧
        rescaleChan (pMin palette) (pMax palette) (pMax palette) = 255 ∧
        ∀ x ∈ paletteChannels palette,
          0 ≤ rescaleChan (pMin palette) (pMax palette) x ∧
          rescaleChan (pMin palette) (pMax palette) x ≤ 255) := by
  have hstage : (if sat then saturateStep palette else some palette) =
      some (if sat = true then saturatedPalette palette else palette) := by
    cases sat with
    | false => rfl
    | true =>
        have hlt := hsat rfl
        simp only [if_true]
        unfold saturateStep
        rw [if_neg (by intro h0; rw [sub_eq_zero] at h0; exact absurd h0.symm (ne_of_lt hlt))]
  have hp1ne : (if sat = true then saturatedPalette palette else palette) ≠ [] := by
    cases sat with
    | false => simpa using hne
    | true =>
        simp only [if_true]
        unfold saturatedPalette
        simpa using hne
  refine ⟨(if wbg then whiteOverride (if sat = true then saturatedPalette palette else palette)
      else (if sat = true then saturatedPalette palette else palette)).map ratFloorRGB,
    ?_, ?_, ?_, ?_, ?_⟩
  · unfold postprocess
    rw [hstage]
  · intro hs hw
    rw [hs, hw]
    simp
  · intro hs hw
    rw [hs, hw]
    simp
  · intro hw
    rw [hw]
    simp only [if_true]
    obtain ⟨c, rest, hcr⟩ : ∃ c rest,
        (if sat = true then saturatedPalette palette else palette) = c :: rest := by
      cases hcase : (if sat = true then saturatedPalette palette else palette) with
      | nil => exact absurd hcase hp1ne
      | cons c rest => exact ⟨c, rest, rfl⟩
    rw [hcr]
    unfold whiteOverride
    constructor
    · show some (ratFloorRGB (255, 255, 255)) = some (255, 255, 255)
      unfold ratFloorRGB
      norm_num
      decide
    · rfl
  · intro hs
    have hlt := hsat hs
    have hden : pMax palette - pMin palette ≠ 0 := by
      intro h0
      rw [sub_eq_zero] at h0
      exact absurd h0.symm (ne_of_lt hlt)
    have hdenpos : 0 < pMax palette - pMin palette := sub_pos.mpr hlt
    refine ⟨?_, ?_, ?_⟩
    · unfold rescaleChan
      rw [sub_self, mul_zero, zero_div]
    · unfold rescaleChan
      rw [mul_div_assoc, div_self hden, mul_one]
    · intro x hx
      have h1 := pMin_le_mem palette x hx
      have h2 := mem_le_pMax palette x hx
      unfold rescaleChan
      constructor
      · exact div_nonneg (mul_nonneg (by norm_num) (sub_nonneg.mpr h1)) (le_of_lt hdenpos)
      · rw [div_le_iff₀ hdenpos]
        have : x - pMin palette ≤ pMax palette - pMin palette := by linarith
        nlinarith

/-- C9 (witness): with both flags on and the palette
[(0,0,0),(255,255,255)], the labels [0] come through unchanged and palette
entry 0 is forced to (255,255,255). -/
theorem postprocess_spec_witness :
    ∃ p2, postprocess true true [0] [((0 : ℚ), 0, 0), (255, 255, 255)] = some ([0], p2) ∧
      p2.head? = some (255, 255, 255) := by
  have hmem0 : (0 : ℚ) ∈ paletteChannels [((0 : ℚ), 0, 0), (255, 255, 255)] := by
    simp [paletteChannels]
  have hmem255 : (255 : ℚ) ∈ paletteChannels [((0 : ℚ), 0, 0), (255, 255, 255)] := by
    simp [paletteChannels]
  obtain ⟨p2, h1, _, _, h4, _⟩ := postprocess_spec true true [0]
    [((0 : ℚ), 0, 0), (255, 255, 255)] (by simp)
    (fun _ => by
      have ha := pMin_le_mem [((0 : ℚ), 0, 0), (255, 255, 255)] 0 hmem0
      have hb := mem_le_pMax [((0 : ℚ), 0, 0), (255, 255, 255)] 255 hmem255
      linarith)
  exact ⟨p2, h1, (h4 rfl).1⟩

/-- C10: the saturate stage divides by `pmax - pmin` with no guard.  On a
valid palette whose channel values are all equal (here a single gray
entry) the division is 0/0 and the rescaled palette is undefined
(`none`); conversely any palette containing two distinct channel values
has `pmin < pmax` and the stage is well defined. -/
theorem saturate_div_zero :
    saturateStep [((5 : ℚ), 5, 5)] = none ∧
    (∀ p : List RGBQ, ∀ x ∈ paletteChannels p, ∀ y ∈ paletteChannels p,
      x ≠ y → (saturateStep p).isSome = true) := by
  constructor
  · have hch : paletteChannels [((5 : ℚ), 5, 5)] = [5, 5, 5] := rfl
    have hmin : pMin [((5 : ℚ), 5, 5)] = 5 := by
      unfold pMin
      rw [hch]
      simp [minD]
    have hmax : pMax [((5 : ℚ), 5, 5)] = 5 := by
      unfold pMax
      rw [hch]
      simp [maxD]
    unfold saturateStep
    rw [hmin, hmax, if_pos (sub_self 5)]
  · intro p x hx y hy hxy
    have hlt : pMin p < pMax p := by
      rcases lt_or_gt_of_ne hxy with h | h
      · exact lt_of_le_of_lt (pMin_le_mem p x hx) (lt_of_lt_of_le h (mem_le_pMax p y hy))
      · exact lt_of_le_of_lt (pMin_le_mem p y hy) (lt_of_lt_of_le h (mem_le_pMax p x hx))
    unfold saturateStep
    rw [if_neg (by intro h0; rw [sub_eq_zero] at h0; exact absurd h0.symm (ne_of_lt hlt))]
    rfl

/-- C10 (witness): a palette with the two distinct channel values 0 and
255 makes the saturate stage well defined. -/
theorem saturate_div_zero_witness :
    (saturateStep [((0 : ℚ), 0, 0), (255, 255, 255)]).isSome = true := by
  exact saturate_div_zero.2 [((0 : ℚ), 0, 0), (255, 255, 255)]
    0 (by simp [paletteChannels]) 255 (by simp [paletteChannels]) (by norm_num)

end PostprocessClaims

end Notescan
